import Mathlib

/-!
Verification development for the Lumina-Mini-CVS RAG pipeline.

Shallow embedding of the Python sources under `app/`:
text is modelled as `List Char`, token sequences as `List Nat`,
machine behaviour (Python slicing, `str.rfind`, negative indices)
is reproduced over `Int` positions exactly as CPython evaluates them.
-/

/-! ## Whitespace normalisation (`app/ingestion.py`, `chunk_text` lines 137-141)

`re.sub(r"\s+", " ", text).strip()`: every maximal run of whitespace is
replaced by a single space, then leading/trailing whitespace is removed. -/

/-- Python's `\s` on ASCII: space, tab, newline, vertical tab, form feed,
carriage return. -/
def isSpaceC (c : Char) : Bool :=
  c = ' ' || c = '\t' || c = '\n' || c = '\x0b' || c = '\x0c' || c = '\r'

/-- One pass of `re.sub(r"\s+", " ", ·)`: the flag records whether the
previous character belonged to a whitespace run already emitted as `' '`. -/
def collapseAux : Bool → List Char → List Char
  | _, [] => []
  | prevSpace, c :: rest =>
    if isSpaceC c then
      if prevSpace then collapseAux true rest
      else ' ' :: collapseAux true rest
    else c :: collapseAux false rest

/-- `re.sub(r"\s+", " ", text)`. -/
def collapseWs (l : List Char) : List Char := collapseAux false l

/-- Python `str.strip()` restricted to the whitespace class. -/
def stripList (l : List Char) : List Char :=
  ((l.dropWhile isSpaceC).reverse.dropWhile isSpaceC).reverse

/-- `re.sub(r"\s+", " ", text).strip()` — the normalisation `chunk_text`
applies before chunking. -/
def normalizeWs (l : List Char) : List Char := stripList (collapseWs l)

/-! ## CPython index semantics for slices and `str.rfind` -/

/-- CPython slice/`find` index adjustment: a negative index is offset by the
length (clamped below at 0), a non-negative one is clamped above at the
length. -/
def pyAdj (n : Nat) (i : Int) : Nat :=
  if i < 0 then ((n : Int) + i).toNat else min i.toNat n

/-- Python `text[i:j]` on a list of characters. -/
def pySlice (l : List Char) (i j : Int) : List Char :=
  (l.take (pyAdj l.length j)).drop (pyAdj l.length i)

/-- Does `pat` occur in `l` starting at position `p`? -/
def matchesAt (l pat : List Char) (p : Nat) : Bool :=
  (l.drop p).take pat.length == pat

/-- Scan candidate start positions downward from `p` to `lo`, returning the
highest match as an `Int` (or `-1`). -/
def rfindDown (l pat : List Char) (lo : Nat) : Nat → Int
  | 0 => if lo = 0 && matchesAt l pat 0 then 0 else -1
  | p + 1 =>
    if p + 1 < lo then -1
    else if matchesAt l pat (p + 1) then ((p : Int) + 1)
    else rfindDown l pat lo p

/-- Python `text.rfind(pat, i, j)`: highest `p` with `i' ≤ p` and
`p + |pat| ≤ j'` at which `pat` occurs, after CPython index adjustment;
`-1` when there is none. -/
def pyRfind (l pat : List Char) (i j : Int) : Int :=
  let n := l.length
  let lo := pyAdj n i
  let hi := pyAdj n j
  if pat.length ≤ hi then rfindDown l pat lo (hi - pat.length) else -1

/-! ## The chunking scan (`app/ingestion.py` lines 147-176) -/

/-- Result of one iteration of the `while start < len(text)` loop in
`chunk_text`: the chosen cut position `end`, the next window start, and the
(stripped) chunk sliced out. -/
structure StepOut where
  endPos : Int
  nextStart : Int
  chunk : List Char
deriving DecidableEq, Repr

/-- The cut position `end` chosen by one loop iteration:
`end = start + max_chunk_size`; if that is not at the text's end, prefer the
last sentence boundary (`. `, `! `, `? `) strictly after `start`, else the
last space strictly after `start`, else keep `start + max_chunk_size`. -/
def chunkEnd (text : List Char) (maxSize : Nat) (start : Int) : Int :=
  let n : Int := text.length
  let e0 : Int := start + (maxSize : Int)
  if e0 < n then
    let se := max (pyRfind text ['.', ' '] start e0)
             (max (pyRfind text ['!', ' '] start e0) (pyRfind text ['?', ' '] start e0))
    if start < se then se + 1
    else
      let we := pyRfind text [' '] start e0
      if start < we then we else e0
  else e0

/-- One iteration of the `while` loop in `chunk_text`: cut at `chunkEnd`,
emit `text[start:end].strip()`; the next start is `end - overlap` unless
`end` reached the text's end (in which case it is `end`, ending the loop). -/
def chunkStep (text : List Char) (maxSize overlap : Nat) (start : Int) : StepOut :=
  let endPos := chunkEnd text maxSize start
  { endPos := endPos
    nextStart := if endPos < (text.length : Int) then endPos - (overlap : Int) else endPos
    chunk := stripList (pySlice text start endPos) }

/-- The `while start < len(text)` loop of `chunk_text`, with explicit fuel:
`none` means the loop did not finish within `fuel` iterations (the source
has no bound — see the non-termination results below). Empty chunks are
skipped, exactly as `if chunk:` does. -/
def chunkLoop (text : List Char) (maxSize overlap : Nat) :
    Nat → Int → List (List Char) → Option (List (List Char))
  | 0, _, _ => none
  | fuel + 1, start, acc =>
    if start < (text.length : Int) then
      let s := chunkStep text maxSize overlap start
      chunkLoop text maxSize overlap fuel s.nextStart
        (if s.chunk = [] then acc else acc ++ [s.chunk])
    else some acc

/-- `chunk_text(text, max_chunk_size, overlap)` with the parameters already
resolved (the Python wrapper substitutes the configured defaults via `or`).
Empty / whitespace-only input yields zero chunks; normalised text no longer
than `max_chunk_size` is returned whole; otherwise the scan loop runs
(fuelled — `none` models the loop never returning). -/
def chunk_text (text : List Char) (maxSize overlap : Nat) (fuel : Nat) :
    Option (List (List Char)) :=
  if stripList text = [] then some []
  else
    let t := normalizeWs text
    if t.length ≤ maxSize then some [t]
    else chunkLoop t maxSize overlap fuel 0 []

-- Sanity checks of the embedding on concrete data.
example : normalizeWs "  a\t\tb \n".data = "a b".data := by decide
example : pySlice "abcdef".data (-2) 6 = "ef".data := by decide
example : pyRfind "ab cd".data [' '] 0 5 = 2 := by decide
example : pyRfind "ab cd".data ['.', ' '] 0 5 = -1 := by decide
example : chunk_text "hello world".data 20 5 9 = some ["hello world".data] := by decide

/-! ## Elementary facts about the normalisation -/

theorem length_dropWhile_le (p : Char → Bool) (l : List Char) :
    (l.dropWhile p).length ≤ l.length := by
  induction l with
  | nil => simp [List.dropWhile]
  | cons c rest ih =>
    by_cases h : p c
    · simp only [List.dropWhile_cons, if_pos h, List.length_cons]; omega
    · simp [List.dropWhile_cons, if_neg h]

theorem stripList_length_le (l : List Char) : (stripList l).length ≤ l.length := by
  have h1 := length_dropWhile_le isSpaceC ((l.dropWhile isSpaceC).reverse)
  have h2 := length_dropWhile_le isSpaceC l
  simp only [stripList, List.length_reverse] at *
  omega

theorem collapseAux_length_le (l : List Char) : ∀ b, (collapseAux b l).length ≤ l.length := by
  induction l with
  | nil => intro b; simp [collapseAux]
  | cons c rest ih =>
    intro b
    by_cases h : isSpaceC c
    · have htrue := ih true
      cases b
      · simp [collapseAux, h]; omega
      · simp [collapseAux, h]; omega
    · simp [collapseAux, h]; exact ih false

theorem normalizeWs_length_le (l : List Char) : (normalizeWs l).length ≤ l.length :=
  le_trans (stripList_length_le _) (collapseAux_length_le l false)

theorem head?_dropWhile_not (p : Char → Bool) (l : List Char) (a : Char)
    (h : (l.dropWhile p).head? = some a) : p a = false := by
  induction l with
  | nil => simp [List.dropWhile] at h
  | cons c rest ih =>
    by_cases hc : p c
    · rw [List.dropWhile_cons, if_pos hc] at h; exact ih h
    · rw [List.dropWhile_cons, if_neg hc] at h
      simp only [List.head?] at h
      cases h
      simpa using hc

theorem getLast?_dropWhile (p : Char → Bool) (l : List Char)
    (h : l.dropWhile p ≠ []) : (l.dropWhile p).getLast? = l.getLast? := by
  conv_rhs => rw [← List.takeWhile_append_dropWhile p l]
  rw [List.getLast?_append_of_ne_nil _ h]

theorem mem_dropWhile_of_mem (p : Char → Bool) (l : List Char) (a : Char)
    (ha : a ∈ l) (hpa : p a = false) : a ∈ l.dropWhile p := by
  induction l with
  | nil => cases ha
  | cons c rest ih =>
    by_cases hc : p c
    · rw [List.dropWhile_cons, if_pos hc]
      rcases List.mem_cons.mp ha with rfl | h2
      · rw [hpa] at hc; cases hc
      · exact ih h2
    · rw [List.dropWhile_cons, if_neg hc]; exact ha

theorem stripList_ne_nil (l : List Char) (a : Char) (ha : a ∈ l)
    (hpa : isSpaceC a = false) : stripList l ≠ [] := by
  have h1 : a ∈ l.dropWhile isSpaceC := mem_dropWhile_of_mem _ _ _ ha hpa
  have h2 : a ∈ (l.dropWhile isSpaceC).reverse := List.mem_reverse.mpr h1
  intro hnil
  rw [stripList, List.reverse_eq_nil_iff, List.dropWhile_eq_nil_iff] at hnil
  rw [hnil a h2] at hpa
  cases hpa

theorem stripList_eq_nil_all (l : List Char) (h : stripList l = []) :
    ∀ a ∈ l, isSpaceC a = true := by
  intro a ha
  by_contra hcon
  exact stripList_ne_nil l a ha (by simpa using hcon) h

theorem collapseAux_all_space (l : List Char) (hall : ∀ a ∈ l, isSpaceC a = true) :
    collapseAux true l = [] ∧ (collapseAux false l = [] ∨ collapseAux false l = [' ']) := by
  induction l with
  | nil => exact ⟨rfl, Or.inl rfl⟩
  | cons c rest ih =>
    have hc : isSpaceC c = true := hall c (List.mem_cons_self c rest)
    have ih2 := ih (fun a ha => hall a (List.mem_cons_of_mem c ha))
    refine ⟨?_, ?_⟩
    · simp [collapseAux, hc, ih2.1]
    · simp [collapseAux, hc, ih2.1]

theorem normalizeWs_eq_nil (l : List Char) (h : stripList l = []) : normalizeWs l = [] := by
  have hall := stripList_eq_nil_all l h
  rcases (collapseAux_all_space l hall).2 with h2 | h2 <;> rw [normalizeWs, collapseWs, h2] <;>
    decide

theorem stripList_head_not_space (l : List Char) (a : Char)
    (h : (stripList l).head? = some a) : isSpaceC a = false := by
  by_cases hz : (l.dropWhile isSpaceC).reverse.dropWhile isSpaceC = []
  · rw [stripList, hz] at h; cases h
  · rw [stripList, List.head?_reverse, getLast?_dropWhile _ _ hz,
      List.getLast?_reverse] at h
    exact head?_dropWhile_not _ _ _ h

theorem stripList_getLast_not_space (l : List Char) (a : Char)
    (h : (stripList l).getLast? = some a) : isSpaceC a = false := by
  rw [stripList, List.getLast?_reverse] at h
  exact head?_dropWhile_not _ _ _ h

/-! ## Bounds on CPython index adjustment, slices and `rfind` -/

theorem pyAdj_le (n : Nat) (i : Int) : pyAdj n i ≤ n := by
  unfold pyAdj; split_ifs <;> omega

theorem pyAdj_le_self (n : Nat) (i : Int) (h : 0 ≤ i) : (pyAdj n i : Int) ≤ i := by
  unfold pyAdj; split_ifs <;> omega

theorem pyAdj_eq_of_ge (n : Nat) (i : Int) (h : (n : Int) ≤ i) : pyAdj n i = n := by
  unfold pyAdj; split_ifs <;> omega

theorem pyAdj_lt (n : Nat) (i : Int) (h1 : i < (n : Int)) (h2 : 0 < n) : pyAdj n i < n := by
  unfold pyAdj; split_ifs <;> omega

theorem length_pySlice (l : List Char) (i j : Int) :
    (pySlice l i j).length = pyAdj l.length j - pyAdj l.length i := by
  have := pyAdj_le l.length j
  simp only [pySlice, List.length_drop, List.length_take]
  omega

theorem pySlice_length_le (l : List Char) (i j : Int) (m : Nat)
    (hij : i < j) (hjm : j ≤ i + (m : Int)) : (pySlice l i j).length ≤ m := by
  rw [length_pySlice]
  unfold pyAdj
  split_ifs <;> omega

theorem pySlice_of_ge (l : List Char) (i j : Int) (hj : (l.length : Int) ≤ j) :
    pySlice l i j = l.drop (pyAdj l.length i) := by
  unfold pySlice
  rw [pyAdj_eq_of_ge _ _ hj, List.take_length]

theorem neg_one_le_rfindDown (l pat : List Char) (lo : Nat) :
    ∀ p, -1 ≤ rfindDown l pat lo p := by
  intro p
  induction p with
  | zero => simp only [rfindDown]; split_ifs <;> omega
  | succ p ih =>
    simp only [rfindDown]
    split_ifs
    · omega
    · omega
    · exact ih

theorem rfindDown_le (l pat : List Char) (lo : Nat) :
    ∀ p, rfindDown l pat lo p ≤ (p : Int) := by
  intro p
  induction p with
  | zero => simp only [rfindDown]; split_ifs <;> omega
  | succ p ih =>
    simp only [rfindDown]
    split_ifs
    · omega
    · omega
    · have := ih; omega

theorem neg_one_le_pyRfind (l pat : List Char) (i j : Int) : -1 ≤ pyRfind l pat i j := by
  simp only [pyRfind]
  split_ifs with hc
  · exact neg_one_le_rfindDown l pat _ _
  · omega

theorem pyRfind_bound (l pat : List Char) (i j : Int) (h : 0 ≤ pyRfind l pat i j) :
    pyRfind l pat i j + pat.length ≤ (pyAdj l.length j : Int) := by
  simp only [pyRfind] at h ⊢
  split_ifs at h ⊢ with hc
  · have := rfindDown_le l pat (pyAdj l.length i) (pyAdj l.length j - pat.length)
    omega
  · omega

/-! ## C7 — texts no longer than `max_chunk_size` -/

/-- C7 counterexample: the claim says every text of length at most
`max_chunk_size` yields exactly one chunk equal to its whitespace-normalised
form, but the whitespace-only text `" "` (length 1 ≤ 5) yields zero
chunks, not one. -/
theorem C7_counterexample :
    chunk_text [' '] 5 3 9 = some [] ∧ chunk_text [' '] 5 3 9 ≠ some [normalizeWs [' ']] := by
  decide

/-- C7 (amended): for every text `T` that contains at least one
non-whitespace character and whose length is at most `max_chunk_size`,
`chunk_text` returns exactly one chunk, equal to `T`'s whitespace-normalised
form (regardless of overlap and of how much fuel the loop is given, since
the loop is not entered). -/
theorem C7_single_chunk (T : List Char) (maxSize overlap fuel : Nat)
    (h1 : stripList T ≠ []) (h2 : T.length ≤ maxSize) :
    chunk_text T maxSize overlap fuel = some [normalizeWs T] := by
  have hlen : (normalizeWs T).length ≤ maxSize :=
    le_trans (normalizeWs_length_le T) h2
  simp only [chunk_text]
  rw [if_neg h1, if_pos hlen]

theorem C7_single_chunk_witness :
    stripList "Hi  there".data ≠ [] ∧ "Hi  there".data.length ≤ 20 ∧
      chunk_text "Hi  there".data 20 5 9 = some [normalizeWs "Hi  there".data] :=
  ⟨by decide, by decide, C7_single_chunk "Hi  there".data 20 5 9 (by decide) (by decide)⟩

/-! ## C2 — the scan loop need not terminate

On `"ab cdefgh"` with `max_chunk_size = 5`, `overlap = 3` the window start
cycles `0 → -1 → 1 → -1 → 1 → …` forever: the code has no clamp on
`start = end - overlap`, so a word boundary close to the window start makes
the start regress, and Python's negative-index semantics then keep the scan
inside the text forever.  Verified against CPython: the loop state
`(start, end)` repeats `(-1, 4), (1, 2)` indefinitely. -/

private def cycleText : List Char := "ab cdefgh".data

example : chunkStep cycleText 5 3 0 = ⟨2, -1, "ab".data⟩ := by decide
example : chunkStep cycleText 5 3 (-1) = ⟨4, 1, []⟩ := by decide
example : chunkStep cycleText 5 3 1 = ⟨2, -1, "b".data⟩ := by decide

theorem chunkLoop_cycle (fuel : Nat) :
    (∀ acc, chunkLoop cycleText 5 3 fuel (-1) acc = none)
      ∧ (∀ acc, chunkLoop cycleText 5 3 fuel 1 acc = none) := by
  induction fuel with
  | zero => exact ⟨fun _ => rfl, fun _ => rfl⟩
  | succ n ih =>
    have hm : chunkStep cycleText 5 3 (-1) = ⟨4, 1, []⟩ := by decide
    have hp : chunkStep cycleText 5 3 1 = ⟨2, -1, "b".data⟩ := by decide
    constructor
    · intro acc
      simp only [chunkLoop, hm]
      rw [if_pos (by decide)]
      simpa using ih.2 acc
    · intro acc
      simp only [chunkLoop, hp]
      rw [if_pos (by decide)]
      simpa using ih.1 (acc ++ ["b".data])

/-- C2: `chunk_text` does not terminate on every input with
`0 < max_chunk_size` and `0 ≤ overlap < max_chunk_size`.  On the text
`"ab cdefgh"` with `max_chunk_size = 5`, `overlap = 3` the scan loop never
finishes, however much fuel it is given: after emitting `"ab"` the start
position cycles between `-1` and `1` forever. -/
theorem C2_chunk_text_nonterminating (fuel : Nat) :
    chunk_text "ab cdefgh".data 5 3 fuel = none := by
  have hstrip : ¬ stripList "ab cdefgh".data = [] := by decide
  have hnorm : normalizeWs "ab cdefgh".data = cycleText := by decide
  simp only [chunk_text]
  rw [if_neg hstrip]
  simp only [hnorm]
  rw [if_neg (by decide : ¬ cycleText.length ≤ 5)]
  cases fuel with
  | zero => rfl
  | succ n =>
    have h0 : chunkStep cycleText 5 3 0 = ⟨2, -1, "ab".data⟩ := by decide
    simp only [chunkLoop, h0]
    rw [if_pos (by decide)]
    simpa using (chunkLoop_cycle n).1 ["ab".data]

/-! ## C3 — overlap positioning of the next window -/

/-- C3 counterexample: the claim says the next window start is
`end − overlap` *clamped so it never regresses to or past the previous
start*.  On `"ab cdefgh"` with `max_chunk_size = 5`, `overlap = 3`, the
window starting at 0 is cut at `end = 2` (word boundary) and the next start
is `2 - 3 = -1`, strictly before the start 0 of the chunk just emitted —
there is no clamp in the code. -/
theorem C3_counterexample :
    chunkStep "ab cdefgh".data 5 3 0 = ⟨2, -1, "ab".data⟩
      ∧ (chunkStep "ab cdefgh".data 5 3 0).nextStart < 0 := by
  decide

/-- C3 (amended): after emitting a chunk ending at position `end`, the next
window starts at `end − overlap` unconditionally — there is no clamping, and
the new start may regress to or past the start of the chunk just emitted
(see the counterexample and the C2 non-termination) — and if `end` reached
the end of the text, the next start is `end` itself and the scan stops
without applying overlap, returning the accumulated chunks. -/
theorem C3_next_window_start (text : List Char) (maxSize overlap : Nat) (start : Int)
    (fuel : Nat) (acc : List (List Char)) (h : start < (text.length : Int)) :
    ((chunkStep text maxSize overlap start).endPos < (text.length : Int) →
      (chunkStep text maxSize overlap start).nextStart
        = (chunkStep text maxSize overlap start).endPos - (overlap : Int))
    ∧ (¬ (chunkStep text maxSize overlap start).endPos < (text.length : Int) →
      (chunkStep text maxSize overlap start).nextStart
          = (chunkStep text maxSize overlap start).endPos
        ∧ chunkLoop text maxSize overlap (fuel + 2) start acc
            = some (if (chunkStep text maxSize overlap start).chunk = [] then acc
                else acc ++ [(chunkStep text maxSize overlap start).chunk])) := by
  have hns : (chunkStep text maxSize overlap start).nextStart
      = if (chunkStep text maxSize overlap start).endPos < (text.length : Int) then
          (chunkStep text maxSize overlap start).endPos - (overlap : Int)
        else (chunkStep text maxSize overlap start).endPos := rfl
  constructor
  · intro hlt
    rw [hns, if_pos hlt]
  · intro hge
    refine ⟨by rw [hns, if_neg hge], ?_⟩
    have hstop : ¬ (chunkStep text maxSize overlap start).nextStart < (text.length : Int) := by
      rw [hns, if_neg hge]; exact hge
    simp only [chunkLoop]
    rw [if_pos h, if_neg hstop]

theorem C3_next_window_start_witness :
    ((0 : Int) < ("abc".data.length : Int))
      ∧ (((chunkStep "abc".data 5 2 0).endPos < ("abc".data.length : Int) →
          (chunkStep "abc".data 5 2 0).nextStart
            = (chunkStep "abc".data 5 2 0).endPos - (2 : Int))
        ∧ (¬ (chunkStep "abc".data 5 2 0).endPos < ("abc".data.length : Int) →
          (chunkStep "abc".data 5 2 0).nextStart = (chunkStep "abc".data 5 2 0).endPos
            ∧ chunkLoop "abc".data 5 2 (0 + 2) 0 []
                = some (if (chunkStep "abc".data 5 2 0).chunk = [] then ([] : List (List Char))
                    else [] ++ [(chunkStep "abc".data 5 2 0).chunk]))) :=
  ⟨by decide, C3_next_window_start "abc".data 5 2 0 0 [] (by decide)⟩

/-! ## Facts about one step of the scan -/

theorem chunkStep_endPos (t : List Char) (m o : Nat) (s : Int) :
    (chunkStep t m o s).endPos = chunkEnd t m s := rfl

theorem chunkStep_nextStart (t : List Char) (m o : Nat) (s : Int) :
    (chunkStep t m o s).nextStart
      = if chunkEnd t m s < (t.length : Int) then chunkEnd t m s - (o : Int)
        else chunkEnd t m s := rfl

theorem chunkStep_chunk (t : List Char) (m o : Nat) (s : Int) :
    (chunkStep t m o s).chunk = stripList (pySlice t s (chunkEnd t m s)) := rfl

theorem max3_eq (a b c : Int) :
    max a (max b c) = a ∨ max a (max b c) = b ∨ max a (max b c) = c := by
  rcases max_choice a (max b c) with h | h
  · exact Or.inl h
  · rcases max_choice b c with h2 | h2
    · exact Or.inr (Or.inl (h.trans h2))
    · exact Or.inr (Or.inr (h.trans h2))

/-- Where the cut position can lie: strictly after `start`, at most
`start + max_chunk_size`, equal to `start + max_chunk_size` whenever it did
not stay strictly inside the text, and never below `-1`. -/
theorem chunkEnd_cases (t : List Char) (m : Nat) (s : Int)
    (hm : 0 < m) (hem : -(m : Int) ≤ s) :
    s < chunkEnd t m s ∧ chunkEnd t m s ≤ s + (m : Int)
      ∧ (chunkEnd t m s < (t.length : Int) ∨ chunkEnd t m s = s + (m : Int))
      ∧ -1 ≤ chunkEnd t m s := by
  have he0 : (0 : Int) ≤ s + (m : Int) := by omega
  have hile : (pyAdj t.length (s + (m : Int)) : Int) ≤ s + (m : Int) :=
    pyAdj_le_self _ _ he0
  have hadj : pyAdj t.length (s + (m : Int)) ≤ t.length := pyAdj_le _ _
  have hpat1 : (['.', ' '] : List Char).length = 2 := rfl
  have hpat2 : (['!', ' '] : List Char).length = 2 := rfl
  have hpat3 : (['?', ' '] : List Char).length = 2 := rfl
  have hpat4 : ([' '] : List Char).length = 1 := rfl
  have hn1 := neg_one_le_pyRfind t ['.', ' '] s (s + (m : Int))
  have hn2 := neg_one_le_pyRfind t ['!', ' '] s (s + (m : Int))
  have hn3 := neg_one_le_pyRfind t ['?', ' '] s (s + (m : Int))
  have hn4 := neg_one_le_pyRfind t [' '] s (s + (m : Int))
  simp only [chunkEnd]
  split_ifs with h1 h2 h3
  · -- sentence-boundary branch
    rcases le_or_lt 0 (max (pyRfind t ['.', ' '] s (s + (m : Int)))
        (max (pyRfind t ['!', ' '] s (s + (m : Int)))
          (pyRfind t ['?', ' '] s (s + (m : Int))))) with hse | hse
    · rcases max3_eq (pyRfind t ['.', ' '] s (s + (m : Int)))
          (pyRfind t ['!', ' '] s (s + (m : Int)))
          (pyRfind t ['?', ' '] s (s + (m : Int))) with he | he | he
      · have hb := pyRfind_bound t ['.', ' '] s (s + (m : Int)) (by omega)
        rw [hpat1] at hb
        omega
      · have hb := pyRfind_bound t ['!', ' '] s (s + (m : Int)) (by omega)
        rw [hpat2] at hb
        omega
      · have hb := pyRfind_bound t ['?', ' '] s (s + (m : Int)) (by omega)
        rw [hpat3] at hb
        omega
    · omega
  · -- word-boundary branch
    rcases le_or_lt 0 (pyRfind t [' '] s (s + (m : Int))) with hwe | hwe
    · have hb := pyRfind_bound t [' '] s (s + (m : Int)) hwe
      rw [hpat4] at hb
      omega
    · omega
  · omega
  · omega

theorem chunkStep_chunk_length (t : List Char) (m o : Nat) (s : Int)
    (hm : 0 < m) (hem : -(m : Int) ≤ s) : (chunkStep t m o s).chunk.length ≤ m := by
  rw [chunkStep_chunk]
  obtain ⟨h1, h2, -, -⟩ := chunkEnd_cases t m s hm hem
  exact le_trans (stripList_length_le _) (pySlice_length_le t s _ m h1 h2)

theorem head?_take_pos (l : List Char) (k : Nat) (h : 0 < k) :
    (l.take k).head? = l.head? := by
  cases l with
  | nil => simp
  | cons c rest =>
    cases k with
    | zero => omega
    | succ k2 => rw [List.take_succ_cons]; rfl

/-- The final iteration's chunk (the one whose cut reached the text's end)
is non-empty: it contains the text's last character, which is not
whitespace. -/
theorem chunkStep_chunk_ne_nil_final (t : List Char) (m o : Nat) (s : Int)
    (hne : t ≠ []) (hlast : ∀ a, t.getLast? = some a → isSpaceC a = false)
    (hs : s < (t.length : Int)) (hend : (t.length : Int) ≤ chunkEnd t m s) :
    (chunkStep t m o s).chunk ≠ [] := by
  rw [chunkStep_chunk, pySlice_of_ge t s _ hend]
  have hn : 0 < t.length := List.length_pos.mpr hne
  have hlt : pyAdj t.length s < t.length := pyAdj_lt _ _ hs hn
  have hdrop : (t.drop (pyAdj t.length s)).getLast? = t.getLast? := by
    rw [List.getLast?_drop, if_neg (by omega)]
  have ha : t.getLast? = some (t.getLast hne) := List.getLast?_eq_getLast t hne
  have hmem : t.getLast hne ∈ t.drop (pyAdj t.length s) :=
    List.mem_of_mem_getLast? (Option.mem_def.mpr (by rw [hdrop]; exact ha))
  exact stripList_ne_nil _ _ hmem (hlast _ ha)

/-- The first iteration's chunk (window starting at 0) is non-empty: it
contains the text's first character, which is not whitespace. -/
theorem chunkStep_chunk_ne_nil_first (t : List Char) (m o : Nat)
    (hne : t ≠ []) (hhead : ∀ a, t.head? = some a → isSpaceC a = false)
    (h1 : 1 ≤ chunkEnd t m 0) : (chunkStep t m o 0).chunk ≠ [] := by
  rw [chunkStep_chunk]
  have hn : 0 < t.length := List.length_pos.mpr hne
  have h0 : pyAdj t.length 0 = 0 := by unfold pyAdj; simp
  have hsl : pySlice t 0 (chunkEnd t m 0) = t.take (pyAdj t.length (chunkEnd t m 0)) := by
    unfold pySlice; rw [h0, List.drop_zero]
  rw [hsl]
  have hj : 0 < pyAdj t.length (chunkEnd t m 0) := by
    unfold pyAdj; split_ifs <;> omega
  have hh : (t.take (pyAdj t.length (chunkEnd t m 0))).head? = t.head? :=
    head?_take_pos t _ hj
  have ha : t.head? = some (t.head hne) := List.head?_eq_head hne
  have hmem : t.head hne ∈ t.take (pyAdj t.length (chunkEnd t m 0)) :=
    List.mem_of_mem_head? (Option.mem_def.mpr (by rw [hh]; exact ha))
  exact stripList_ne_nil _ _ hmem (hhead _ ha)

/-! ## C8 — texts longer than `max_chunk_size` -/

/-- Whenever the scan loop does return, each loop entry with a start
position inside the text adds at least one chunk (the final one), every
produced chunk is non-empty, and no chunk exceeds `max_chunk_size`. -/
theorem chunkLoop_chunks (t : List Char) (m o : Nat) (hmo : o < m) (hne : t ≠ [])
    (hlast : ∀ a, t.getLast? = some a → isSpaceC a = false) :
    ∀ fuel (start : Int) (acc cs : List (List Char)),
      -(o : Int) - 1 ≤ start → start < (t.length : Int) →
      chunkLoop t m o fuel start acc = some cs →
      acc.length + 1 ≤ cs.length ∧ ∀ c ∈ cs, c ∈ acc ∨ (c ≠ [] ∧ c.length ≤ m) := by
  intro fuel
  induction fuel with
  | zero =>
    intro start acc cs _ _ hrun
    simp [chunkLoop] at hrun
  | succ f ih =>
    intro start acc cs hlb hub hrun
    have hm : 0 < m := by omega
    have hem : -(m : Int) ≤ start := by omega
    obtain ⟨hlt, hle, hor, hneg⟩ := chunkEnd_cases t m start hm hem
    simp only [chunkLoop] at hrun
    rw [if_pos hub] at hrun
    by_cases hend : chunkEnd t m start < (t.length : Int)
    · have hns : (chunkStep t m o start).nextStart = chunkEnd t m start - (o : Int) := by
        rw [chunkStep_nextStart, if_pos hend]
      rw [hns] at hrun
      have hlb2 : -(o : Int) - 1 ≤ chunkEnd t m start - (o : Int) := by omega
      have hub2 : chunkEnd t m start - (o : Int) < (t.length : Int) := by omega
      obtain ⟨ha, hb⟩ := ih _ _ _ hlb2 hub2 hrun
      constructor
      · have hlen : acc.length
            ≤ (if (chunkStep t m o start).chunk = [] then acc
                else acc ++ [(chunkStep t m o start).chunk]).length := by
          split_ifs <;> simp
        omega
      · intro c hc
        rcases hb c hc with hmem | hP
        · by_cases hnil : (chunkStep t m o start).chunk = []
          · rw [if_pos hnil] at hmem
            exact Or.inl hmem
          · rw [if_neg hnil] at hmem
            rcases List.mem_append.mp hmem with h2 | h2
            · exact Or.inl h2
            · right
              have hcq : c = (chunkStep t m o start).chunk := by simpa using h2
              subst hcq
              exact ⟨hnil, chunkStep_chunk_length t m o start hm hem⟩
        · exact Or.inr hP
    · have hstop : ¬ (chunkStep t m o start).nextStart < (t.length : Int) := by
        rw [chunkStep_nextStart, if_neg hend]
        exact hend
      cases f with
      | zero => simp [chunkLoop] at hrun
      | succ g =>
        simp only [chunkLoop] at hrun
        rw [if_neg hstop] at hrun
        have hcs := Option.some.inj hrun
        have hnnil : (chunkStep t m o start).chunk ≠ [] :=
          chunkStep_chunk_ne_nil_final t m o start hne hlast hub (not_lt.mp hend)
        rw [if_neg hnnil] at hcs
        subst hcs
        constructor
        · simp
        · intro c hc
          rcases List.mem_append.mp hc with h2 | h2
          · exact Or.inl h2
          · right
            have hcq : c = (chunkStep t m o start).chunk := by simpa using h2
            subst hcq
            exact ⟨hnnil, chunkStep_chunk_length t m o start hm hem⟩

/-- C8 counterexample: the claim quantifies over every non-empty text whose
*raw* length exceeds `max_chunk_size`, but `"a      b"` (length 8 > 5)
whitespace-normalises to `"a b"` (length 3 ≤ 5) and so yields exactly one
chunk, not at least two. -/
theorem C8_counterexample :
    Option.map List.length (chunk_text "a      b".data 5 3 9) = some 1 ∧ ¬ 2 ≤ 1 := by
  decide

/-- C8 (amended): for every text whose *whitespace-normalised* form is
longer than `max_chunk_size` (with `overlap < max_chunk_size`), *if* the
scan loop terminates (the source loop need not — see C2), then `chunk_text`
returns at least 2 chunks, none of which is empty, and each chunk's length
is at most `max_chunk_size` (so in particular within any non-negative slack
for boundary search). -/
theorem C8_chunk_bounds (T : List Char) (maxSize overlap fuel : Nat)
    (cs : List (List Char)) (hov : overlap < maxSize)
    (hlen : maxSize < (normalizeWs T).length)
    (hrun : chunk_text T maxSize overlap fuel = some cs) :
    2 ≤ cs.length ∧ ∀ c ∈ cs, c ≠ [] ∧ c.length ≤ maxSize := by
  have hne : normalizeWs T ≠ [] := by
    intro h0
    rw [h0] at hlen
    simp at hlen
  have hhead : ∀ a, (normalizeWs T).head? = some a → isSpaceC a = false :=
    fun a ha => stripList_head_not_space (collapseWs T) a ha
  have hlast : ∀ a, (normalizeWs T).getLast? = some a → isSpaceC a = false :=
    fun a ha => stripList_getLast_not_space (collapseWs T) a ha
  have hstrip : ¬ stripList T = [] := by
    intro h0
    exact hne (normalizeWs_eq_nil T h0)
  simp only [chunk_text] at hrun
  rw [if_neg hstrip, if_neg (by omega : ¬ (normalizeWs T).length ≤ maxSize)] at hrun
  cases fuel with
  | zero => simp [chunkLoop] at hrun
  | succ f =>
    have hm : 0 < maxSize := by omega
    obtain ⟨hlt, hle, hor, hneg⟩ := chunkEnd_cases (normalizeWs T) maxSize 0 hm (by omega)
    have hend : chunkEnd (normalizeWs T) maxSize 0 < ((normalizeWs T).length : Int) := by
      omega
    simp only [chunkLoop] at hrun
    rw [if_pos (by omega : (0 : Int) < ((normalizeWs T).length : Int))] at hrun
    have hns : (chunkStep (normalizeWs T) maxSize overlap 0).nextStart
        = chunkEnd (normalizeWs T) maxSize 0 - (overlap : Int) := by
      rw [chunkStep_nextStart, if_pos hend]
    rw [hns] at hrun
    have hfirst : (chunkStep (normalizeWs T) maxSize overlap 0).chunk ≠ [] :=
      chunkStep_chunk_ne_nil_first (normalizeWs T) maxSize overlap hne hhead (by omega)
    rw [if_neg hfirst] at hrun
    obtain ⟨ha, hb⟩ := chunkLoop_chunks (normalizeWs T) maxSize overlap hov hne hlast
      f _ _ cs (by omega) (by omega) hrun
    constructor
    · simpa using ha
    · intro c hc
      rcases hb c hc with hmem | hP
      · have hcq : c = (chunkStep (normalizeWs T) maxSize overlap 0).chunk := by
          simpa using hmem
        subst hcq
        exact ⟨hfirst, chunkStep_chunk_length _ _ _ _ hm (by omega)⟩
      · exact hP

theorem C8_chunk_bounds_witness :
    (3 : Nat) < 5 ∧ 5 < (normalizeWs "abcdefgh".data).length ∧
      chunk_text "abcdefgh".data 5 3 9
        = some ["abcde".data, "cdefg".data, "efgh".data] ∧
      (2 ≤ ["abcde".data, "cdefg".data, "efgh".data].length
        ∧ ∀ c ∈ ["abcde".data, "cdefg".data, "efgh".data], c ≠ [] ∧ c.length ≤ 5) :=
  ⟨by decide, by decide, by decide,
    C8_chunk_bounds "abcdefgh".data 5 3 9 ["abcde".data, "cdefg".data, "efgh".data]
      (by decide) (by decide) (by decide)⟩

/-! ## Prompt assembly (`app/rag_engine.py`, `build_prompt` lines 89-147)

Document texts are modelled by their token sequences (`List Nat`): the
spec's non-goals exclude reproducing any specific tokenizer, and both
`calculate_token_count` and `truncate_text` act through the tokenizer's
encode/decode, so counting is the sequence's length and truncation keeps a
prefix of the sequence. -/

/-- `calculate_token_count` (`app/utils.py` lines 60-79): the length of the
text's token sequence. -/
def calculate_token_count (tokens : List Nat) : Nat := tokens.length

/-- `truncate_text` (`app/utils.py` lines 82-108): text whose token count
already fits is returned unchanged, otherwise the decode of its first
`max_tokens` tokens. -/
def truncate_text (tokens : List Nat) (maxTokens : Nat) : List Nat :=
  if tokens.length ≤ maxTokens then tokens else tokens.take maxTokens

/-- The context-assembly loop of `build_prompt`: walk the retrieved
documents in order with a running token count; a document that fits the
remaining budget is appended whole; one that does not fit is truncated to
the remaining budget when more than 100 tokens of budget remain, else the
loop breaks.  After a truncated append the running count is increased by
the document's *full* token count, exactly as the source does — which makes
the following iteration break. -/
def buildContextParts (maxContextTokens : Nat) :
    List (List Nat) → Nat → List (List Nat)
  | [], _ => []
  | d :: rest, current =>
    let docTokens := calculate_token_count d
    if maxContextTokens < current + docTokens then
      let remaining := maxContextTokens - current
      if 100 < remaining then
        truncate_text d remaining
          :: buildContextParts maxContextTokens rest (current + docTokens)
      else []
    else d :: buildContextParts maxContextTokens rest (current + docTokens)

/-- The document blocks of the context assembled by `build_prompt`
(the instruction prefix, `[Document i]` headers, joiners and the question
are constant text outside the token accounting, as in the source). -/
def build_prompt (docs : List (List Nat)) (maxContextTokens : Nat) : List (List Nat) :=
  buildContextParts maxContextTokens docs 0

-- A document that fits is appended whole; an oversized one is truncated to
-- the remaining budget and nothing further is included; with at most 100
-- tokens of budget left, assembly stops without including the document.
example : build_prompt [[1, 2], [3, 4, 5]] 3 = [[1, 2]] := by decide
set_option maxRecDepth 4000 in
example :
    build_prompt [List.replicate 200 7, [5]] 150 = [List.replicate 150 7] := by decide
set_option maxRecDepth 4000 in
example : build_prompt [List.replicate 200 7] 90 = [] := by decide

theorem buildContextParts_nil_of_lt (B : Nat) (docs : List (List Nat)) (current : Nat)
    (h : B < current) : buildContextParts B docs current = [] := by
  cases docs with
  | nil => rfl
  | cons d rest =>
    simp only [buildContextParts, calculate_token_count]
    rw [if_pos (by omega), if_neg (by omega)]

theorem buildContextParts_sum_le (B : Nat) (docs : List (List Nat)) :
    ∀ current, ((buildContextParts B docs current).map calculate_token_count).sum
      ≤ B - current := by
  induction docs with
  | nil => intro current; simp [buildContextParts]
  | cons d rest ih =>
    intro current
    simp only [buildContextParts, calculate_token_count]
    split_ifs with h1 h2
    · rw [buildContextParts_nil_of_lt B rest (current + d.length) (by omega)]
      simp only [List.map_cons, List.map_nil, List.sum_cons, List.sum_nil]
      have : (truncate_text d (B - current)).length ≤ B - current := by
        unfold truncate_text
        split_ifs with h3
        · omega
        · simp [List.length_take]
      simp only [calculate_token_count]
      omega
    · simp
    · have := ih (current + d.length)
      simp only [List.map_cons, List.sum_cons, calculate_token_count]
      omega

/-- C1: for every list of retrieved documents and every token budget `B`,
the document blocks that `build_prompt` assembles into the context have a
total estimated token count of at most `B`: each candidate in retrieval
order is appended whole if it fits the remaining budget, a token-truncated
prefix is appended when it does not fit but more than 100 tokens of budget
remain (after which nothing further is included), and otherwise assembly
stops without including it. -/
theorem C1_context_within_budget (docs : List (List Nat)) (B : Nat) :
    ((build_prompt docs B).map calculate_token_count).sum ≤ B := by
  simpa using buildContextParts_sum_le B docs 0

/-! ## Retry policy (`app/embeddings.py` lines 35-54,
`app/rag_engine.py` lines 149-179)

Both remote calls are wrapped in
`@retry(retry=retry_if_exception_type(...), stop=stop_after_attempt(MAX_RETRIES), wait=...)`.
The backend is modelled as a function from the attempt number (1-based) to
an outcome; the wait schedule only affects timing, not control flow. -/

/-- Outcome of one attempt of a remote call, following the exception
classes named in the source: `RateLimitError`, `APIError`, `Timeout`
(transient classes), and non-retried failures such as a malformed request
or an authentication failure. -/
inductive Outcome where
  | success
  | rateLimit
  | apiError
  | timeout
  | invalidRequest
  | authError
deriving DecidableEq, Repr

/-- Result of the wrapped call: a normal return, tenacity's `RetryError`
raised once the attempt ceiling is hit with a retryable failure, or the
original exception propagating at once when it is not retryable. -/
inductive RetryResult where
  | ok
  | retryError (o : Outcome)
  | raised (o : Outcome)
deriving DecidableEq, Repr

/-- The tenacity driver: run attempt `k`; on success return; on a
retryable failure stop (raising `RetryError`) if no retries remain, else
move to attempt `k + 1`; on any other failure re-raise immediately.
`remaining` counts the attempts still allowed after the current one
(`stop_after_attempt(n)` stops once the attempt number reaches `n`).
Returns the number of the last attempt made together with the result. -/
def retryGo (retryable : Outcome → Bool) (call : Nat → Outcome) :
    Nat → Nat → Nat × RetryResult
  | remaining, k =>
    let o := call k
    if o = .success then (k, .ok)
    else if retryable o then
      match remaining with
      | 0 => (k, .retryError o)
      | m + 1 => retryGo retryable call m (k + 1)
    else (k, .raised o)

/-- `retry_if_exception_type((RateLimitError, APIError))` — the embedding
call's retryable classes (`app/embeddings.py` line 36). -/
def embeddingRetryable : Outcome → Bool
  | .rateLimit => true
  | .apiError => true
  | _ => false

/-- `retry_if_exception_type((RateLimitError, APIError, Timeout))` — the
generative call's retryable classes (`app/rag_engine.py` line 150). -/
def llmRetryable : Outcome → Bool
  | .rateLimit => true
  | .apiError => true
  | .timeout => true
  | _ => false

/-- `EmbeddingClient._call_embedding_api` under
`stop_after_attempt(maxRetries)`: first attempt is number 1, and at most
`maxRetries - 1` further attempts follow. -/
def call_embedding_api (maxRetries : Nat) (call : Nat → Outcome) : Nat × RetryResult :=
  retryGo embeddingRetryable call (maxRetries - 1) 1

/-- `RAGEngine._call_llm_api` under `stop_after_attempt(maxRetries)`. -/
def call_llm_api (maxRetries : Nat) (call : Nat → Outcome) : Nat × RetryResult :=
  retryGo llmRetryable call (maxRetries - 1) 1

theorem retryGo_all_transient (retryable : Outcome → Bool) (call : Nat → Outcome)
    (hfail : ∀ j, call j ≠ .success) (hret : ∀ j, retryable (call j) = true) :
    ∀ remaining k, retryGo retryable call remaining k
      = (k + remaining, .retryError (call (k + remaining))) := by
  intro remaining
  induction remaining with
  | zero =>
    intro k
    simp only [retryGo]
    rw [if_neg (hfail k), if_pos (hret k)]
    simp
  | succ m ih =>
    intro k
    simp only [retryGo]
    rw [if_neg (hfail k), if_pos (hret k)]
    rw [ih (k + 1)]
    have heq : k + 1 + m = k + (m + 1) := by omega
    rw [heq]

theorem retryGo_permanent (retryable : Outcome → Bool) (call : Nat → Outcome)
    (remaining k : Nat) (hfail : call k ≠ .success) (hret : retryable (call k) = false) :
    retryGo retryable call remaining k = (k, .raised (call k)) := by
  cases remaining <;> (simp only [retryGo]; rw [if_neg hfail, hret]; simp)

/-- C4 counterexample: the claim says an always-transiently-failing call
"is retried exactly MAX_RETRIES times and then raises".  With
`MAX_RETRIES = 3` (the configured default) and a backend that rate-limits
every attempt, the embedding call makes 3 attempts in total — the first
attempt plus only 2 retries, not 3 retries — before raising. -/
theorem C4_counterexample :
    call_embedding_api 3 (fun _ => Outcome.rateLimit)
        = (3, RetryResult.retryError Outcome.rateLimit)
      ∧ (call_embedding_api 3 (fun _ => Outcome.rateLimit)).1 - 1 ≠ 3 := by
  decide

/-- C4 (amended): for both provider calls, under attempt ceiling
`MAX_RETRIES ≥ 1`, a call that fails with a retryable transient error
(rate limit or transient API error; for the generative call also timeout)
on every attempt is attempted exactly `MAX_RETRIES` times in total — the
first attempt plus `MAX_RETRIES − 1` retries — and then raises
(tenacity's `RetryError` carrying the last transient failure); a call whose
first attempt fails with a non-retryable (permanent) error — e.g. a
malformed request or an authentication failure — raises it immediately
after that single attempt, with no retry. -/
theorem C4_retry_bound (n : Nat) (hn : 1 ≤ n) :
    (∀ call : Nat → Outcome,
      (∀ j, call j ≠ .success ∧ embeddingRetryable (call j) = true) →
      call_embedding_api n call = (n, .retryError (call n)))
    ∧ (∀ call : Nat → Outcome,
      call 1 ≠ .success → embeddingRetryable (call 1) = false →
      call_embedding_api n call = (1, .raised (call 1)))
    ∧ (∀ call : Nat → Outcome,
      (∀ j, call j ≠ .success ∧ llmRetryable (call j) = true) →
      call_llm_api n call = (n, .retryError (call n)))
    ∧ (∀ call : Nat → Outcome,
      call 1 ≠ .success → llmRetryable (call 1) = false →
      call_llm_api n call = (1, .raised (call 1))) := by
  refine ⟨?_, ?_, ?_, ?_⟩
  · intro call h
    unfold call_embedding_api
    rw [retryGo_all_transient embeddingRetryable call (fun j => (h j).1) (fun j => (h j).2),
      (by omega : 1 + (n - 1) = n)]
  · intro call h1 h2
    exact retryGo_permanent embeddingRetryable call (n - 1) 1 h1 h2
  · intro call h
    unfold call_llm_api
    rw [retryGo_all_transient llmRetryable call (fun j => (h j).1) (fun j => (h j).2),
      (by omega : 1 + (n - 1) = n)]
  · intro call h1 h2
    exact retryGo_permanent llmRetryable call (n - 1) 1 h1 h2

theorem C4_retry_bound_witness :
    (1 : Nat) ≤ 3
      ∧ call_embedding_api 3 (fun _ => Outcome.rateLimit)
          = (3, .retryError Outcome.rateLimit)
      ∧ call_embedding_api 3 (fun _ => Outcome.authError)
          = (1, .raised Outcome.authError)
      ∧ call_llm_api 3 (fun _ => Outcome.timeout) = (3, .retryError Outcome.timeout)
      ∧ call_llm_api 3 (fun _ => Outcome.invalidRequest)
          = (1, .raised Outcome.invalidRequest) :=
  ⟨by decide,
    (C4_retry_bound 3 (by decide)).1 (fun _ => Outcome.rateLimit)
      (fun _ => ⟨fun h => Outcome.noConfusion h, rfl⟩),
    (C4_retry_bound 3 (by decide)).2.1 (fun _ => Outcome.authError)
      (fun h => Outcome.noConfusion h) rfl,
    (C4_retry_bound 3 (by decide)).2.2.1 (fun _ => Outcome.timeout)
      (fun _ => ⟨fun h => Outcome.noConfusion h, rfl⟩),
    (C4_retry_bound 3 (by decide)).2.2.2 (fun _ => Outcome.invalidRequest)
      (fun h => Outcome.noConfusion h) rfl⟩

/-! ## Vector search (`app/db.py`, `MongoDBClient.mongo_knn_search`
lines 112-177)

The external Atlas index is modelled by its interface contract: each stored
document carries a similarity score for the query at hand, and
`$vectorSearch` returns the highest-scoring documents up to its `limit`
(drawn from a `numCandidates` pool).  The repository's own code is the
aggregation pipeline it builds: `[$vectorSearch, $project, $limit]`, with
`pipeline.insert(1, {"$match": filter_criteria})` when a filter is given. -/

/-- A stored document as the pipeline's `$project` stage shapes it:
`_id`, `text`, `metadata` and the similarity score. -/
structure SDoc where
  id : String
  text : List Nat
  score : Nat
  metadata : List (String × String)
deriving DecidableEq, Repr

/-- Mongo `$match` with equality conditions: every `field: value` pair of
the filter must hold of the document's metadata. -/
def docMatches (filter : List (String × String)) (d : SDoc) : Bool :=
  filter.all (fun kv => d.metadata.lookup kv.1 == some kv.2)

/-- Insert a document into a list kept in descending score order. -/
def insertByScore (d : SDoc) : List SDoc → List SDoc
  | [] => [d]
  | e :: rest => if e.score < d.score then d :: e :: rest else e :: insertByScore d rest

/-- Descending-score order, the order in which the index returns results. -/
def sortByScore (l : List SDoc) : List SDoc := l.foldr insertByScore []

/-- The aggregation stages that `mongo_knn_search` composes. -/
inductive Stage where
  | vectorSearch (numCandidates limit : Nat)
  | matchStage (filter : List (String × String))
  | projectStage
  | limitStage (n : Nat)
deriving DecidableEq, Repr

/-- The pipeline exactly as the source builds it:
`[$vectorSearch(numCandidates=50, limit=top_k), $project, $limit(top_k)]`,
and when `filter_criteria` is supplied, `pipeline.insert(1, {"$match": …})`
places the match stage at index 1 — *after* the `$vectorSearch` stage. -/
def mongo_knn_pipeline (topK : Nat) (filter : Option (List (String × String))) :
    List Stage :=
  let pipeline := [Stage.vectorSearch 50 topK, Stage.projectStage, Stage.limitStage topK]
  match filter with
  | some f => pipeline.insertIdx 1 (Stage.matchStage f)
  | none => pipeline

/-- Evaluation of one aggregation stage against the collection:
`$vectorSearch` ranks the whole collection by descending score and keeps at
most `limit` of the `numCandidates` best (the external index's contract);
`$match` filters the stream; `$project` reshapes (identity on the modelled
fields); `$limit` truncates. -/
def runStage (store : List SDoc) (current : List SDoc) : Stage → List SDoc
  | .vectorSearch nc lim => ((sortByScore store).take nc).take lim
  | .matchStage f => current.filter (docMatches f)
  | .projectStage => current
  | .limitStage n => current.take n

def runPipeline (store : List SDoc) (stages : List Stage) : List SDoc :=
  stages.foldl (runStage store) store

/-- `mongo_knn_search(query_embedding, top_k, filter_criteria)`:
run the pipeline the source builds. -/
def mongo_knn_search (store : List SDoc) (topK : Nat)
    (filter : Option (List (String × String))) : List SDoc :=
  runPipeline store (mongo_knn_pipeline topK filter)

/-- The behaviour the claim describes: the filter restricts the candidate
set *before* similarity ranking and truncation to `top_k`. -/
def preFilteredSearch (store : List SDoc) (topK : Nat)
    (f : List (String × String)) : List SDoc :=
  (sortByScore (store.filter (docMatches f))).take topK

private def c5docA : SDoc := ⟨"a", [], 9, [("lang", "en")]⟩
private def c5docB : SDoc := ⟨"b", [], 5, [("lang", "fr")]⟩

/-- C5 counterexample: with two documents — a high-scoring one that fails
the filter and a low-scoring one that matches — and `top_k = 1`, the code's
pipeline first lets `$vectorSearch` rank and truncate to the single
best-scoring document (the non-matching one) and only then applies
`$match`, returning nothing; pre-filtering as claimed would return the
matching document. -/
theorem C5_counterexample :
    mongo_knn_search [c5docA, c5docB] 1 (some [("lang", "fr")]) = []
      ∧ preFilteredSearch [c5docA, c5docB] 1 [("lang", "fr")] = [c5docB]
      ∧ ([] : List SDoc) ≠ [c5docB] := by
  decide

/-- C5 (amended): when a metadata filter is supplied, it is inserted as a
`$match` stage *after* the `$vectorSearch` stage: candidates are ranked and
truncated to `top_k` without regard to the filter, and non-matching results
are then removed from that ranked prefix — so every returned document does
match the filter, at most `top_k` documents are returned, but fewer than
`top_k` matching documents may be returned even when the collection holds
enough of them (post-filtering, not server-side pre-filtering). -/
theorem C5_match_after_ranking (store : List SDoc) (topK : Nat)
    (f : List (String × String)) :
    mongo_knn_search store topK (some f)
        = ((((sortByScore store).take 50).take topK).filter (docMatches f)).take topK
      ∧ (∀ d ∈ mongo_knn_search store topK (some f), docMatches f d = true)
      ∧ (mongo_knn_search store topK (some f)).length ≤ topK := by
  refine ⟨rfl, ?_, ?_⟩
  · intro d hd
    exact (List.mem_filter.mp (List.mem_of_mem_take hd)).2
  · exact List.length_take_le _ _

/-! ## Query short-circuit (`app/rag_engine.py`, `RAGEngine.query`
lines 252-337) -/

/-- A retrieved document as `retrieve` returns it (text modelled by its
token sequence, as in the prompt-assembly section). -/
structure RetrievedDoc where
  text : List Nat
  score : Nat
  metadata : List (String × String)
deriving DecidableEq, Repr

/-- The outcome `query` returns: the answer, the formatted sources, and —
for the purpose of the no-generative-call property — how many times the
generative provider was invoked. -/
structure QueryOutcome where
  answer : String
  sources : List RetrievedDoc
  llmCalls : Nat
deriving DecidableEq, Repr

/-- The canned reply returned when nothing was retrieved
(`app/rag_engine.py` line 290). -/
def notFoundAnswer : String :=
  "I couldn't find any relevant information to answer your question."

/-- `RAGEngine.query` downstream of retrieval: given the documents the
retrieval step produced and the generative provider (which may fail), if
zero documents were retrieved return the canned answer with no sources and
no generative call; otherwise build the prompt from the retrieved texts,
call the provider once, and return its answer with the retrieved documents
as sources. -/
def rag_query (retrieved : List RetrievedDoc)
    (llm : List (List Nat) → Except String String) : Except String QueryOutcome :=
  if retrieved = [] then
    Except.ok ⟨notFoundAnswer, [], 0⟩
  else
    match llm (build_prompt (retrieved.map (fun d => d.text)) 3000) with
    | .ok ans => .ok ⟨ans, retrieved, 1⟩
    | .error e => .error e

/-- C6: if the retrieval step returns zero documents, `query` returns — as
a normal `ok` result, not a raised error, and whatever the generative
provider would do — the designated "couldn't find" answer, an empty sources
list, and zero generative calls. -/
theorem C6_empty_retrieval_fallback (llm : List (List Nat) → Except String String) :
    rag_query [] llm = Except.ok ⟨notFoundAnswer, [], 0⟩ := rfl

/-! ## Chunk identifiers (`app/ingestion.py`, `generate_chunk_id`
lines 191-204)

`hashlib.md5(f"{file_path}:{chunk_index}".encode()).hexdigest()` — MD5 is
implemented below over byte lists with `Nat` arithmetic mod `2^32`
(UTF-8 encoding agrees with code points on the ASCII inputs considered). -/

def bnot32 (x : Nat) : Nat := x ^^^ 4294967295

def rotl32 (x s : Nat) : Nat :=
  ((x <<< s) % 4294967296) ||| (x >>> (32 - s))

def md5F (b c d : Nat) : Nat := (b &&& c) ||| (bnot32 b &&& d)
def md5G (b c d : Nat) : Nat := (d &&& b) ||| (bnot32 d &&& c)
def md5H (b c d : Nat) : Nat := (b ^^^ c) ^^^ d
def md5I (b c d : Nat) : Nat := c ^^^ (b ||| bnot32 d)

/-- The 64 round constants `floor(2^32 * |sin(i+1)|)` of MD5. -/
def md5K : List Nat :=
  [0xd76aa478, 0xe8c7b756, 0x242070db, 0xc1bdceee,
   0xf57c0faf, 0x4787c62a, 0xa8304613, 0xfd469501,
   0x698098d8, 0x8b44f7af, 0xffff5bb1, 0x895cd7be,
   0x6b901122, 0xfd987193, 0xa679438e, 0x49b40821,
   0xf61e2562, 0xc040b340, 0x265e5a51, 0xe9b6c7aa,
   0xd62f105d, 0x02441453, 0xd8a1e681, 0xe7d3fbc8,
   0x21e1cde6, 0xc33707d6, 0xf4d50d87, 0x455a14ed,
   0xa9e3e905, 0xfcefa3f8, 0x676f02d9, 0x8d2a4c8a,
   0xfffa3942, 0x8771f681, 0x6d9d6122, 0xfde5380c,
   0xa4beea44, 0x4bdecfa9, 0xf6bb4b60, 0xbebfbc70,
   0x289b7ec6, 0xeaa127fa, 0xd4ef3085, 0x04881d05,
   0xd9d4d039, 0xe6db99e5, 0x1fa27cf8, 0xc4ac5665,
   0xf4292244, 0x432aff97, 0xab9423a7, 0xfc93a039,
   0x655b59c3, 0x8f0ccc92, 0xffeff47d, 0x85845dd1,
   0x6fa87e4f, 0xfe2ce6e0, 0xa3014314, 0x4e0811a1,
   0xf7537e82, 0xbd3af235, 0x2ad7d2bb, 0xeb86d391]

/-- The per-round left-rotation amounts of MD5. -/
def md5S : List Nat :=
  [7, 12, 17, 22, 7, 12, 17, 22, 7, 12, 17, 22, 7, 12, 17, 22,
   5, 9, 14, 20, 5, 9, 14, 20, 5, 9, 14, 20, 5, 9, 14, 20,
   4, 11, 16, 23, 4, 11, 16, 23, 4, 11, 16, 23, 4, 11, 16, 23,
   6, 10, 15, 21, 6, 10, 15, 21, 6, 10, 15, 21, 6, 10, 15, 21]

structure Md5State where
  a : Nat
  b : Nat
  c : Nat
  d : Nat
deriving DecidableEq, Repr

def md5Round (M : List Nat) (st : Md5State) (i : Nat) : Md5State :=
  let fg :=
    if i < 16 then (md5F st.b st.c st.d, i)
    else if i < 32 then (md5G st.b st.c st.d, (5 * i + 1) % 16)
    else if i < 48 then (md5H st.b st.c st.d, (3 * i + 5) % 16)
    else (md5I st.b st.c st.d, (7 * i) % 16)
  let tmp := rotl32 ((st.a + fg.1 + md5K.getD i 0 + M.getD fg.2 0) % 4294967296)
    (md5S.getD i 0)
  ⟨st.d, (st.b + tmp) % 4294967296, st.b, st.c⟩

/-- Split a byte list into little-endian 32-bit words. -/
def bytesToWords : List Nat → List Nat
  | b0 :: b1 :: b2 :: b3 :: rest =>
    (b0 + 256 * b1 + 65536 * b2 + 16777216 * b3) :: bytesToWords rest
  | _ => []

def md5ProcessBlock (st : Md5State) (block : List Nat) : Md5State :=
  let M := bytesToWords block
  let r := (List.range 64).foldl (md5Round M) st
  ⟨(st.a + r.a) % 4294967296, (st.b + r.b) % 4294967296,
   (st.c + r.c) % 4294967296, (st.d + r.d) % 4294967296⟩

/-- Process the given number of 64-byte blocks. -/
def processBlocksN : Nat → Md5State → List Nat → Md5State
  | 0, st, _ => st
  | k + 1, st, bs => processBlocksN k (md5ProcessBlock st (bs.take 64)) (bs.drop 64)

def le8 (x : Nat) : List Nat := (List.range 8).map (fun i => (x >>> (8 * i)) % 256)

def le4 (x : Nat) : List Nat := (List.range 4).map (fun i => (x >>> (8 * i)) % 256)

/-- MD5 padding: `0x80`, zeros to 56 mod 64, then the bit length as a
little-endian 64-bit quantity. -/
def md5Pad (msg : List Nat) : List Nat :=
  let zeros := (119 - msg.length % 64) % 64
  msg ++ [128] ++ List.replicate zeros 0 ++ le8 (8 * msg.length)

def md5Init : Md5State := ⟨0x67452301, 0xefcdab89, 0x98badcfe, 0x10325476⟩

def md5Bytes (msg : List Nat) : List Nat :=
  let padded := md5Pad msg
  let st := processBlocksN (padded.length / 64) md5Init padded
  le4 st.a ++ le4 st.b ++ le4 st.c ++ le4 st.d

def hexChar (n : Nat) : Char :=
  if n < 10 then Char.ofNat (48 + n) else Char.ofNat (87 + n)

def toHexString (bytes : List Nat) : String :=
  String.mk (bytes.foldr (fun b acc => hexChar (b / 16) :: hexChar (b % 16) :: acc) [])

def strBytes (s : String) : List Nat := s.data.map Char.toNat

/-- `generate_chunk_id(file_path, chunk_index)`:
`md5("{file_path}:{chunk_index}").hexdigest()`. -/
def generate_chunk_id (filePath : String) (chunkIndex : Nat) : String :=
  toHexString (md5Bytes (strBytes (filePath ++ ":" ++ toString chunkIndex)))

-- The MD5 implementation matches the reference digests.
set_option maxRecDepth 100000 in
example : toHexString (md5Bytes (strBytes "abc"))
    = "900150983cd24fb0d6963f7d28e17f72" := by decide
set_option maxRecDepth 100000 in
example : toHexString (md5Bytes []) = "d41d8cd98f00b204e9800998ecf8427e" := by decide
set_option maxRecDepth 100000 in
example : generate_chunk_id "doc.txt" 0 = "bfa7a7f1de4fea673d197beb23c8767a" := by decide
set_option maxRecDepth 100000 in
example : generate_chunk_id "doc.txt" 1 = "ddb1b39a189cb147eb77e656e2ecda87" := by decide

/-! ## The vector store as `upsert_document` writes it
(`app/db.py` lines 60-110) -/

/-- One stored record: text, embedding (the remote model's value, abstract)
and metadata; `created_at` is wall-clock time, outside the model. -/
structure IndexedDoc where
  text : List Char
  embedding : Int
  metadata : List (String × String)
deriving DecidableEq, Repr

/-- The collection: records keyed by `_id`. -/
abbrev Store := List (String × IndexedDoc)

def storeKeys (store : Store) : List String := store.map Prod.fst

/-- `replace_one({"_id": doc_id}, document, upsert=True)`: full
replace-by-id of the matching record, or append when the id is new. -/
def upsert_document (store : Store) (docId : String) (text : List Char)
    (emb : Int) (md : List (String × String)) : Store :=
  if store.any (fun p => p.1 == docId) then
    store.map (fun p => if p.1 = docId then (docId, ⟨text, emb, md⟩) else p)
  else store ++ [(docId, ⟨text, emb, md⟩)]

theorem mem_storeKeys_upsert_self (store : Store) (cid : String) (t : List Char)
    (e : Int) (m' : List (String × String)) :
    cid ∈ storeKeys (upsert_document store cid t e m') := by
  unfold upsert_document
  split_ifs with h
  · obtain ⟨p, hp, hpe⟩ := List.any_eq_true.mp h
    have hpc : p.1 = cid := by simpa using hpe
    have : (cid, (⟨t, e, m'⟩ : IndexedDoc)).1
        ∈ (store.map (fun p => if p.1 = cid then (cid, ⟨t, e, m'⟩) else p)).map Prod.fst := by
      exact List.mem_map_of_mem _ (by
        have : (if p.1 = cid then ((cid, ⟨t, e, m'⟩) : String × IndexedDoc) else p)
            ∈ store.map (fun p => if p.1 = cid then (cid, ⟨t, e, m'⟩) else p) :=
          List.mem_map_of_mem _ hp
        rwa [if_pos hpc] at this)
    simpa [storeKeys] using this
  · simp [storeKeys]

theorem storeKeys_upsert_superset (store : Store) (cid : String) (t : List Char)
    (e : Int) (m' : List (String × String)) (k : String) (h : k ∈ storeKeys store) :
    k ∈ storeKeys (upsert_document store cid t e m') := by
  unfold upsert_document
  obtain ⟨p, hp, hpk⟩ := List.mem_map.mp h
  split_ifs with hc
  · by_cases hpe : p.1 = cid
    · have : ((cid, ⟨t, e, m'⟩) : String × IndexedDoc)
          ∈ store.map (fun p => if p.1 = cid then (cid, ⟨t, e, m'⟩) else p) :=
        List.mem_map.mpr ⟨p, hp, by simp [hpe]⟩
      have hmem := List.mem_map_of_mem Prod.fst this
      simpa [storeKeys, ← hpk, hpe] using hmem
    · have : p ∈ store.map (fun p => if p.1 = cid then (cid, ⟨t, e, m'⟩) else p) :=
        List.mem_map.mpr ⟨p, hp, by simp [hpe]⟩
      have hmem := List.mem_map_of_mem Prod.fst this
      simpa [storeKeys, hpk] using hmem
  · simp only [storeKeys, List.map_append]
    exact List.mem_append.mpr (Or.inl h)

theorem storeKeys_upsert_mem (store : Store) (cid : String) (t : List Char)
    (e : Int) (m' : List (String × String)) (h : cid ∈ storeKeys store) :
    storeKeys (upsert_document store cid t e m') = storeKeys store := by
  unfold upsert_document
  obtain ⟨p, hp, hpk⟩ := List.mem_map.mp h
  rw [if_pos (List.any_eq_true.mpr ⟨p, hp, by simpa using hpk⟩)]
  simp only [storeKeys, List.map_map]
  apply List.map_congr_left
  intro q _
  by_cases hq : q.1 = cid
  · simp [hq]
  · simp [hq]

/-! ## Ingestion pipeline (`app/ingestion.py`, `ingest_file` lines 207-301,
`ingest_directory` lines 304-377)

File parsing (`parse_file` and the file system) and the embedding backend
are external collaborators; they enter as the function parameters `parse`
(which may raise) and `embed`.  The chunk loop's fuel is threaded through
from `chunk_text` (see C2). -/

/-- The metadata attached to chunk `i` of `total`:
`{"source_file": …, "chunk_index": …, "total_chunks": …}` merged with the
caller's metadata (`**metadata` — the caller's entries follow and take
precedence under update semantics). -/
def chunkMetadata (path : String) (i total : Nat)
    (md : List (String × String)) : List (String × String) :=
  [("source_file", path), ("chunk_index", toString i), ("total_chunks", toString total)]
    ++ md

/-- The per-chunk loop of `ingest_file` from index `i` on: generate the
chunk's deterministic id, embed its text, upsert it, and collect the id. -/
def ingestChunksFrom (path : String) (embed : List Char → Int)
    (md : List (String × String)) (total : Nat) :
    List (List Char) → Nat → Store → List String × Store
  | [], _, store => ([], store)
  | c :: rest, i, store =>
    let cid := generate_chunk_id path i
    let store2 := upsert_document store cid c (embed c) (chunkMetadata path i total md)
    let r := ingestChunksFrom path embed md total rest (i + 1) store2
    (cid :: r.1, r.2)

/-- `ingest_file`: parse (propagating parse failures), return no chunk ids
for empty or whitespace-only text, chunk (the loop may not return — `none`),
then embed and upsert each chunk in order, returning the chunk ids and the
updated store. -/
def ingest_file (fuel : Nat) (parse : String → Except String (List Char))
    (embed : List Char → Int) (maxSize overlap : Nat) (md : List (String × String))
    (path : String) (store : Store) :
    Option (Except String (List String) × Store) :=
  match parse path with
  | .error e => some (.error e, store)
  | .ok text =>
    if stripList text = [] then some (.ok [], store)
    else
      match chunk_text text maxSize overlap fuel with
      | none => none
      | some [] => some (.ok [], store)
      | some (c :: rest) =>
        let r := ingestChunksFrom path embed md (c :: rest).length (c :: rest) 0 store
        some (.ok r.1, r.2)

/-- `ingest_directory`: ingest the files one at a time; a file whose
ingestion raises is recorded with an empty chunk-id list and the batch
continues with the remaining files. -/
def ingest_directory (fuel : Nat) (parse : String → Except String (List Char))
    (embed : List Char → Int) (maxSize overlap : Nat) (md : List (String × String)) :
    List String → Store → Option (List (String × List String) × Store)
  | [], store => some ([], store)
  | f :: rest, store =>
    match ingest_file fuel parse embed maxSize overlap md f store with
    | none => none
    | some (res, store2) =>
      match ingest_directory fuel parse embed maxSize overlap md rest store2 with
      | none => none
      | some (results, store3) =>
        some ((f, match res with | .ok ids => ids | .error _ => []) :: results, store3)

/-! ## C9 — deterministic ids, idempotent re-ingestion -/

theorem ingestChunksFrom_ids (path : String) (embed : List Char → Int)
    (md : List (String × String)) (total : Nat) :
    ∀ (chunks : List (List Char)) (i : Nat) (store : Store),
      (ingestChunksFrom path embed md total chunks i store).1
        = (List.range chunks.length).map (fun j => generate_chunk_id path (i + j)) := by
  intro chunks
  induction chunks with
  | nil => intro i store; simp [ingestChunksFrom]
  | cons c rest ih =>
    intro i store
    simp only [ingestChunksFrom, List.length_cons, List.range_succ_eq_map,
      List.map_cons, List.map_map]
    have htail : (ingestChunksFrom path embed md total rest (i + 1)
        (upsert_document store (generate_chunk_id path i) c (embed c)
          (chunkMetadata path i total md))).1
        = List.map ((fun j => generate_chunk_id path (i + j)) ∘ Nat.succ)
            (List.range rest.length) := by
      rw [ih]
      apply List.map_congr_left
      intro j _
      simp only [Function.comp]
      congr 1
      omega
    rw [htail]
    simp

theorem ingestChunksFrom_keys_sub (path : String) (embed : List Char → Int)
    (md : List (String × String)) (total : Nat) :
    ∀ (chunks : List (List Char)) (i : Nat) (store : Store),
      (∀ k, k ∈ storeKeys store
          → k ∈ storeKeys (ingestChunksFrom path embed md total chunks i store).2)
      ∧ ∀ j, j < chunks.length → generate_chunk_id path (i + j)
          ∈ storeKeys (ingestChunksFrom path embed md total chunks i store).2 := by
  intro chunks
  induction chunks with
  | nil =>
    intro i store
    exact ⟨fun k hk => hk, fun j hj => absurd hj (by simp)⟩
  | cons c rest ih =>
    intro i store
    simp only [ingestChunksFrom]
    constructor
    · intro k hk
      exact (ih (i + 1) _).1 k (storeKeys_upsert_superset _ _ _ _ _ k hk)
    · intro j hj
      cases j with
      | zero =>
        have h1 := mem_storeKeys_upsert_self store (generate_chunk_id path i) c
          (embed c) (chunkMetadata path i total md)
        have h2 := (ih (i + 1) _).1 _ h1
        simpa using h2
      | succ j2 =>
        have h2 := (ih (i + 1) (upsert_document store (generate_chunk_id path i) c
          (embed c) (chunkMetadata path i total md))).2 j2 (by simpa using hj)
        have heq : i + 1 + j2 = i + (j2 + 1) := by omega
        rw [heq] at h2
        exact h2

theorem ingestChunksFrom_keys_eq (path : String) (embed : List Char → Int)
    (md : List (String × String)) (total : Nat) :
    ∀ (chunks : List (List Char)) (i : Nat) (store : Store),
      (∀ j, j < chunks.length → generate_chunk_id path (i + j) ∈ storeKeys store) →
      storeKeys (ingestChunksFrom path embed md total chunks i store).2
        = storeKeys store := by
  intro chunks
  induction chunks with
  | nil => intro i store _; rfl
  | cons c rest ih =>
    intro i store h
    have h0 : generate_chunk_id path i ∈ storeKeys store := by
      simpa using h 0 (by simp)
    have hk2 : storeKeys (upsert_document store (generate_chunk_id path i) c
        (embed c) (chunkMetadata path i total md)) = storeKeys store :=
      storeKeys_upsert_mem _ _ _ _ _ h0
    simp only [ingestChunksFrom]
    rw [ih (i + 1) _ (fun j hj => by
      rw [hk2]
      have h3 := h (j + 1) (by simpa using hj)
      have heq : i + (j + 1) = i + 1 + j := by omega
      rwa [heq] at h3)]
    exact hk2

/-- C9: ingesting the same source twice with unchanged content yields the
same sequence of chunk ids both times, and because each upsert is keyed by
the deterministic `generate_chunk_id(source_ref, index)`, the second run
overwrites records in place: the store's key set is unchanged by the second
run (no duplicates are created).  This holds for every parser and embedder
outcome; runs that raise or never return produce no id sequence and the
statement is vacuous for them. -/
theorem C9_reingest_idempotent (fuel : Nat) (parse : String → Except String (List Char))
    (embed : List Char → Int) (maxSize overlap : Nat) (md : List (String × String))
    (path : String) (store : Store) :
    match ingest_file fuel parse embed maxSize overlap md path store with
    | some (.ok ids, store1) =>
      ∃ store2, ingest_file fuel parse embed maxSize overlap md path store1
          = some (.ok ids, store2) ∧ storeKeys store2 = storeKeys store1
    | _ => True := by
  split
  case h_2 => trivial
  rename_i ids store1 heq
  cases hp : parse path with
  | error e => simp [ingest_file, hp] at heq
  | ok text =>
    by_cases hstrip : stripList text = []
    · simp only [ingest_file, hp, if_pos hstrip, Option.some.injEq, Prod.mk.injEq,
        Except.ok.injEq] at heq
      obtain ⟨rfl, rfl⟩ := heq
      exact ⟨store, by simp [ingest_file, hp, hstrip], rfl⟩
    · cases hc : chunk_text text maxSize overlap fuel with
      | none => simp [ingest_file, hp, hstrip, hc] at heq
      | some chunks =>
        cases chunks with
        | nil =>
          simp only [ingest_file, hp, if_neg hstrip, hc, Option.some.injEq,
            Prod.mk.injEq, Except.ok.injEq] at heq
          obtain ⟨rfl, rfl⟩ := heq
          exact ⟨store, by simp [ingest_file, hp, hstrip, hc], rfl⟩
        | cons c rest =>
          simp only [ingest_file, hp, if_neg hstrip, hc, Option.some.injEq,
            Prod.mk.injEq, Except.ok.injEq] at heq
          obtain ⟨hids, hst⟩ := heq
          refine ⟨(ingestChunksFrom path embed md (c :: rest).length (c :: rest) 0
            store1).2, ?_, ?_⟩
          · simp only [ingest_file, hp, if_neg hstrip, hc, Option.some.injEq,
              Prod.mk.injEq, Except.ok.injEq, and_true]
            rw [ingestChunksFrom_ids, ← hids, ingestChunksFrom_ids]
          · apply ingestChunksFrom_keys_eq
            intro j hj
            rw [← hst]
            exact (ingestChunksFrom_keys_sub path embed md (c :: rest).length
              (c :: rest) 0 store).2 j hj

/-! ## C10 — per-file failure isolation in directory ingestion -/

/-- C10: a source file whose ingestion raises is recorded in
`ingest_directory`'s returned mapping with an empty chunk-id list and the
batch continues with the remaining files (every file appears, in order, in
the result); consequently the run's public return value is exactly the one
obtained when that file instead parses successfully as an empty file —
a failed file is indistinguishable from a successfully processed empty or
whitespace-only file (both map to `[]`). -/
theorem C10_failed_file_isolated (fuel : Nat)
    (parse : String → Except String (List Char)) (embed : List Char → Int)
    (maxSize overlap : Nat) (md : List (String × String)) (files : List String)
    (store : Store) (f : String) (e : String) (hf : parse f = Except.error e) :
    (∀ results store2,
        ingest_directory fuel parse embed maxSize overlap md files store
            = some (results, store2) →
        results.map Prod.fst = files ∧ (f ∈ files → (f, ([] : List String)) ∈ results))
    ∧ ingest_directory fuel parse embed maxSize overlap md files store
        = ingest_directory fuel (fun g => if g = f then Except.ok [] else parse g)
            embed maxSize overlap md files store := by
  constructor
  · induction files generalizing store with
    | nil =>
      intro results store2 hrun
      simp only [ingest_directory, Option.some.injEq, Prod.mk.injEq] at hrun
      obtain ⟨rfl, rfl⟩ := hrun
      exact ⟨rfl, by simp⟩
    | cons g rest ih =>
      intro results store2 hrun
      simp only [ingest_directory] at hrun
      cases hg : ingest_file fuel parse embed maxSize overlap md g store with
      | none => simp only [hg] at hrun; exact Option.noConfusion hrun
      | some pr =>
        obtain ⟨res, store2m⟩ := pr
        simp only [hg] at hrun
        cases hr : ingest_directory fuel parse embed maxSize overlap md rest store2m with
        | none => simp only [hr] at hrun; exact Option.noConfusion hrun
        | some qr =>
          obtain ⟨resultsr, store3⟩ := qr
          simp only [hr, Option.some.injEq, Prod.mk.injEq] at hrun
          obtain ⟨hres, -⟩ := hrun
          obtain ⟨hmap, hmem⟩ := ih store2m resultsr store3 hr
          constructor
          · rw [← hres]
            simp [hmap]
          · intro hfm
            rcases List.mem_cons.mp hfm with rfl | hfr
            · have hresv : res = Except.error e := by
                simp only [ingest_file, hf, Option.some.injEq, Prod.mk.injEq] at hg
                exact hg.1.symm
              rw [← hres, hresv]
              exact List.mem_cons_self _ _
            · rw [← hres]
              exact List.mem_cons_of_mem _ (hmem hfr)
  · induction files generalizing store with
    | nil => rfl
    | cons g rest ih =>
      by_cases hgf : g = f
      · subst hgf
        simp only [ingest_directory]
        have h1 : ingest_file fuel parse embed maxSize overlap md g store
            = some (.error e, store) := by simp [ingest_file, hf]
        have h2 : ingest_file fuel (fun g2 => if g2 = g then Except.ok [] else parse g2)
              embed maxSize overlap md g store
            = some (.ok [], store) := by simp [ingest_file, stripList]
        simp only [h1, h2]
        rw [ih store]
      · simp only [ingest_directory]
        have hpe : ingest_file fuel (fun g2 => if g2 = f then Except.ok [] else parse g2)
            embed maxSize overlap md g store
            = ingest_file fuel parse embed maxSize overlap md g store := by
          simp only [ingest_file, if_neg hgf]
        rw [hpe]
        cases hg : ingest_file fuel parse embed maxSize overlap md g store with
        | none => rfl
        | some pr =>
          obtain ⟨res, store2m⟩ := pr
          simp only []
          rw [ih store2m]

theorem C10_failed_file_isolated_witness :
    (fun g => if g = "bad.txt" then Except.error "boom"
        else Except.ok ([] : List Char)) "bad.txt" = Except.error "boom"
    ∧ ((∀ results store2,
        ingest_directory 1
            (fun g => if g = "bad.txt" then Except.error "boom" else Except.ok [])
            (fun _ => 0) 512 50 [] ["a.txt", "bad.txt", "c.txt"] []
            = some (results, store2) →
        results.map Prod.fst = ["a.txt", "bad.txt", "c.txt"]
          ∧ ("bad.txt" ∈ ["a.txt", "bad.txt", "c.txt"]
              → ("bad.txt", ([] : List String)) ∈ results))
      ∧ ingest_directory 1
            (fun g => if g = "bad.txt" then Except.error "boom" else Except.ok [])
            (fun _ => 0) 512 50 [] ["a.txt", "bad.txt", "c.txt"] []
          = ingest_directory 1
              (fun g => if g = "bad.txt" then Except.ok []
                else if g = "bad.txt" then Except.error "boom" else Except.ok [])
              (fun _ => 0) 512 50 [] ["a.txt", "bad.txt", "c.txt"] []) :=
  ⟨rfl,
    C10_failed_file_isolated 1
      (fun g => if g = "bad.txt" then Except.error "boom" else Except.ok [])
      (fun _ => 0) 512 50 [] ["a.txt", "bad.txt", "c.txt"] [] "bad.txt" "boom"
      rfl⟩
